import Mathlib

/-!
Verification of the hydra-microbenchmarks harness pattern.

This file shallowly embeds the four C micro-benchmarks
(`microbenchmark1.c` … `microbenchmark4.c`): the timed workload loops,
the spinner-creation loop of benchmarks 3 and 4, the result aggregation
of the drivers, per-thread event traces (syscall/setup ordering), and a
transition system for the ready/go barrier protocol.  Machine doubles
(elapsed seconds) are modelled as rationals; syscall outcomes (mmap
success or failure) are modelled by boolean oracles.
-/

namespace Hydra

/-- Result record for a worker thread, mirroring `worker_data_t`:
`ops` is the completed-operation counter (initialised to 0 by the
driver), `elapsedSet` records whether the timed section ran and wrote
`elapsed_sec` (a worker that bails out before the timed section leaves
it unset). -/
structure WRes where
  ops : Nat
  elapsedSet : Bool
deriving DecidableEq

/-- Operation counter of the PROTECT_TOGGLE loop
(`for (i = 0; i < n; i++) { mprotect; mprotect; ops += 2; }` in
`microbenchmark1.c` lines 75-79, `microbenchmark2.c` lines 82-86,
`microbenchmark3.c` lines 127-131, `microbenchmark4.c` lines 132-136):
the `mprotect` return values are ignored, so the loop always runs all
`n` iterations, adding 2 each time. -/
def mprotectLoopOps (n : Nat) : Nat :=
  (List.range n).foldl (fun ops _ => ops + 2) 0

/-- The PROTECT_TOGGLE workload `do_mprotect_workload` of
`microbenchmark4.c` lines 119-143: if the initial `mmap` fails the
function returns at once, leaving `ops = 0` and the elapsed time unset;
otherwise it faults the region in, runs the timed toggle loop and
records the elapsed time. -/
def do_mprotect_workload (allocOk : Bool) (n : Nat) : WRes :=
  if allocOk then { ops := mprotectLoopOps n, elapsedSet := true }
  else { ops := 0, elapsedSet := false }

/-- Loop body of `do_munmap_workload` (`microbenchmark4.c` lines
158-169): at iteration `i` the region is unmapped and remapped; when
the remap fails (`remapOk i = false`) the loop breaks with the current
counter, otherwise `ops` is incremented by 1 and the loop continues. -/
def munmapLoop (remapOk : Nat → Bool) : Nat → Nat → Nat → Nat
  | _, 0, ops => ops
  | i, fuel + 1, ops =>
    if remapOk i then munmapLoop remapOk (i + 1) fuel (ops + 1) else ops

/-- The UNMAP_REMAP workload `do_munmap_workload` of
`microbenchmark4.c` lines 145-177: a failed initial `mmap` returns with
`ops = 0` and no elapsed time; otherwise the unmap/remap loop runs
(possibly breaking early on a failed remap) and the elapsed time is
recorded unconditionally after the loop. -/
def do_munmap_workload (allocOk : Bool) (remapOk : Nat → Bool) (n : Nat) : WRes :=
  if allocOk then { ops := munmapLoop remapOk 0 n 0, elapsedSet := true }
  else { ops := 0, elapsedSet := false }

/-- Per-node result as read by the drivers of benchmarks 1 and 2 after
joining each worker: the operation counter and the elapsed wall-clock
seconds (a C `double`, modelled as a rational). -/
structure NodeResult where
  ops : Nat
  elapsed_sec : ℚ

/-- Aggregation loop of `microbenchmark1.c` lines 137-144 (and
`microbenchmark2.c` lines 172-179): starting from
`total_ops = 0, max_time = 0`, each joined worker adds its `ops` to the
total and replaces `max_time` when its `elapsed_sec` is larger. -/
def aggregate (rs : List NodeResult) : Nat × ℚ :=
  rs.foldl
    (fun acc r =>
      (acc.1 + r.ops, if acc.2 < r.elapsed_sec then r.elapsed_sec else acc.2))
    (0, 0)

/-- Reported throughput (`microbenchmark1.c` line 151): total operations
divided by the maximal elapsed time. -/
def throughput (rs : List NodeResult) : ℚ :=
  ((aggregate rs).1 : ℚ) / (aggregate rs).2

/-- Observable actions of a participant thread, in program order:
affinity binding, region allocation (`mmap`), fault-in (`memset`),
ready-counter increment, observation of the `go` flag, clock reads
around the timed loop, the memory-management syscalls of the loop body,
region release, spinner counter increments, pause hints, and
observation of the `stop` flag. -/
inductive Ev where
  | pinCpu
  | mmapRegion
  | faultIn
  | readyInc
  | observeGo
  | clockStart
  | mprotectCall
  | munmapCall
  | mmapCall
  | touchByte
  | clockEnd
  | freeRegion
  | spinInc
  | pauseHint
  | observeStop
deriving DecidableEq

/-- Events of the timed PROTECT_TOGGLE loop body: two `mprotect` calls
per iteration. -/
def toggleBody : Nat → List Ev
  | 0 => []
  | n + 1 => Ev.mprotectCall :: Ev.mprotectCall :: toggleBody n

/-- Event trace of the worker of benchmarks 1, 2 and 3
(`microbenchmark1.c` lines 48-88, `microbenchmark2.c` lines 59-95,
`microbenchmark3.c` lines 104-140): pin, allocate, fault in, increment
the ready counter, poll `go`, then immediately run the timed loop. -/
def worker123Trace (n : Nat) : List Ev :=
  Ev.pinCpu :: Ev.mmapRegion :: Ev.faultIn :: Ev.readyInc :: Ev.observeGo ::
    Ev.clockStart :: (toggleBody n ++ [Ev.clockEnd, Ev.freeRegion])

/-- Event trace of the benchmark-4 worker running the PROTECT_TOGGLE
workload (`microbenchmark4.c` lines 204-227 with lines 119-143): the
ready increment and `go` poll happen before the workload call, and the
workload itself allocates and faults in the region before starting the
clock. -/
def worker4Trace (n : Nat) : List Ev :=
  Ev.pinCpu :: Ev.readyInc :: Ev.observeGo :: Ev.mmapRegion :: Ev.faultIn ::
    Ev.clockStart :: (toggleBody n ++ [Ev.clockEnd, Ev.freeRegion])

/-- Events of the spinner loop body: one private-counter increment and
one pause hint per iteration. -/
def spinBody : Nat → List Ev
  | 0 => []
  | k + 1 => Ev.spinInc :: Ev.pauseHint :: spinBody k

/-- Event trace of a spinner thread (`microbenchmark3.c` lines 85-102,
identical in `microbenchmark4.c` lines 101-117): pin, increment the
ready counter, poll `go`, spin until `stop` is observed. -/
def spinnerTrace (k : Nat) : List Ev :=
  Ev.pinCpu :: Ev.readyInc :: Ev.observeGo :: (spinBody k ++ [Ev.observeStop])

/-- Setup actions: affinity binding, region allocation, fault-in. -/
def setupEv : Ev → Bool
  | Ev.pinCpu => true
  | Ev.mmapRegion => true
  | Ev.faultIn => true
  | _ => false

/-- Memory-management syscalls. -/
def mmSyscall : Ev → Bool
  | Ev.mmapRegion => true
  | Ev.mprotectCall => true
  | Ev.munmapCall => true
  | Ev.mmapCall => true
  | Ev.freeRegion => true
  | _ => false

/-- Writes to shared cross-thread state issued by a participant: only
the ready-counter increment (the `go` and `stop` flags are written by
the driver, the spin counter and the region are thread-private). -/
def sharedWrite : Ev → Bool
  | Ev.readyInc => true
  | _ => false

/-- Suffix of a trace strictly after the first occurrence of `e`
(empty if `e` does not occur). -/
def afterFirst (e : Ev) : List Ev → List Ev
  | [] => []
  | x :: t => if x = e then t else afterFirst e t

/-- Longest prefix of a trace strictly before the first occurrence of
`b`. -/
def upTo (b : Ev) : List Ev → List Ev
  | [] => []
  | x :: t => if x = b then [] else x :: upTo b t

/-- Segment of a trace strictly after the first occurrence of `a` and
strictly before the next occurrence of `b`. -/
def segBetween (a b : Ev) (t : List Ev) : List Ev :=
  upTo b (afterFirst a t)

/-- A trace performs no setup action after its ready-counter
increment. -/
def allSetupBeforeReady (t : List Ev) : Bool :=
  (afterFirst Ev.readyInc t).all (fun x => !setupEv x)

/-- A trace performs no setup action between observing `go` and the
start of the timed section. -/
def noSetupGoToTimed (t : List Ev) : Bool :=
  (segBetween Ev.observeGo Ev.clockStart t).all (fun x => !setupEv x)

/-- Private spin counter of a spinner after `k` loop iterations
(`data->spin_count++` starting from 0). -/
def spin_count : Nat → Nat
  | 0 => 0
  | k + 1 => spin_count k + 1

/-- Phase of a participant thread relative to the barrier protocol:
still in setup, ready and polling `go`, or past the barrier in its main
loop. -/
inductive PPhase where
  | setupPh
  | waitingPh
  | mainPh
deriving DecidableEq

/-- Shared barrier state: the `ready_count` counter, the `go` flag, and
the control point of each of the `n` participant threads. -/
structure BState (n : Nat) where
  ready_count : Nat
  go : Bool
  pc : Fin n → PPhase

/-- Barrier state before any thread has run: counter zero, `go` unset,
every participant in setup. -/
def initState (n : Nat) : BState n :=
  { ready_count := 0, go := false, pc := fun _ => PPhase.setupPh }

/-- Interleaving steps of the ready/go barrier protocol shared by all
four benchmarks.  `may i` says whether participant `i` completes its
setup (a worker of benchmarks 1-3 whose initial `mmap` fails returns
before ever incrementing the counter, so it never takes `readyUp`).
`readyUp` models `__sync_fetch_and_add(&ready_count, 1)` after setup;
`enterMain` models a participant leaving the `while (!go)` poll loop,
which requires `go` to be observed true; `arm` models the driver
setting `go = 1`, which it does only after its
`while (ready_count < expected)` wait has seen
`ready_count >= expected`. -/
inductive BStep (n expected : Nat) (may : Fin n → Bool) :
    BState n → BState n → Prop where
  | readyUp (s : BState n) (i : Fin n) (hm : may i = true)
      (hp : s.pc i = PPhase.setupPh) :
      BStep n expected may s
        { ready_count := s.ready_count + 1, go := s.go,
          pc := Function.update s.pc i PPhase.waitingPh }
  | enterMain (s : BState n) (i : Fin n) (hp : s.pc i = PPhase.waitingPh)
      (hg : s.go = true) :
      BStep n expected may s
        { ready_count := s.ready_count, go := s.go,
          pc := Function.update s.pc i PPhase.mainPh }
  | arm (s : BState n) (hg : s.go = false) (hr : expected ≤ s.ready_count) :
      BStep n expected may s
        { ready_count := s.ready_count, go := true, pc := s.pc }

/-- Reachability of a barrier state from the initial state by
interleaved steps. -/
def Reach (n expected : Nat) (may : Fin n → Bool) (s : BState n) : Prop :=
  Relation.ReflTransGen (BStep n expected may) (initState n) s

/-- Number of participants still in their setup phase. -/
def setupCard {n : Nat} (s : BState n) : Nat :=
  (Finset.univ.filter (fun i => s.pc i = PPhase.setupPh)).card

/-- Witness data: a single participant that completes setup. -/
def wMay : Fin 1 → Bool := fun _ => true

/-- Witness state after the lone participant's ready increment. -/
def wSt1 : BState 1 :=
  { ready_count := 1, go := false,
    pc := Function.update (fun _ : Fin 1 => PPhase.setupPh) 0 PPhase.waitingPh }

/-- Witness state after the driver arms the barrier. -/
def wSt2 : BState 1 := { wSt1 with go := true }

/-- Witness state after the participant enters its main loop. -/
def wSt3 : BState 1 :=
  { ready_count := 1, go := true,
    pc := Function.update wSt1.pc 0 PPhase.mainPh }

/-- Witness data: two participants, participant 0 with failing setup. -/
def wMay2 : Fin 2 → Bool := fun i => decide (i ≠ 0)

/-- Witness state after participant 1 (the healthy one) has readied. -/
def wStuck : BState 2 :=
  { ready_count := 1, go := false,
    pc := Function.update (fun _ : Fin 2 => PPhase.setupPh) 1 PPhase.waitingPh }

/-- CPU lookup `get_cpu_for_node(node, index)` of `microbenchmark3.c`
lines 48-69 (identical in `microbenchmark4.c` lines 64-85): the
`index`-th CPU of the node in enumeration order, or none (C: -1) when
the node lookup fails (modelled as an empty CPU list) or the node has
no `index`-th CPU. -/
def get_cpu_for_node (cpusOfNode : Nat → List Nat) (node index : Nat) :
    Option Nat :=
  (cpusOfNode node).get? index

/-- Spinners created for one remote node by the inner loop of
`microbenchmark3.c` lines 211-228: CPU indices `0 … spinners-1` are
looked up, indices with no CPU are skipped (`continue`), each found CPU
yields one spinner thread `(node, cpu)`. -/
def spinnersForNode (cpusOfNode : Nat → List Nat) (spinners node : Nat) :
    List (Nat × Nat) :=
  (List.range spinners).filterMap
    (fun s => (get_cpu_for_node cpusOfNode node s).map (fun c => (node, c)))

/-- Planned spinner total, computed in C `int` arithmetic
(`total_spinners = spinners_per_node * (num_nodes - 1)`,
`microbenchmark3.c` line 187, `microbenchmark4.c` line 290). -/
def initTotalSpinners (spinners numNodes : Nat) : Int :=
  (spinners : Int) * ((numNodes : Int) - 1)

/-- Spinner threads actually created by the driver loop
(`microbenchmark3.c` lines 202-229): the loop runs only when the
planned total is positive, skips the worker's node, and within each
remote node skips CPU indices that do not exist. -/
def createdSpinners (cpusOfNode : Nat → List Nat)
    (numNodes spinners workerNode : Nat) : List (Nat × Nat) :=
  if 0 < initTotalSpinners spinners numNodes then
    ((List.range numNodes).map
      (fun node =>
        if node = workerNode then []
        else spinnersForNode cpusOfNode spinners node)).flatten
  else []

/-- Spinner total after the post-creation adjustment
(`total_spinners = idx` at `microbenchmark3.c` line 230,
`microbenchmark4.c` line 330), which runs only in the
positive-planned-total branch. -/
def finalTotalSpinners (cpusOfNode : Nat → List Nat)
    (numNodes spinners workerNode : Nat) : Int :=
  if 0 < initTotalSpinners spinners numNodes then
    ((createdSpinners cpusOfNode numNodes spinners workerNode).length : Int)
  else initTotalSpinners spinners numNodes

/-- Ready count the driver waits for before setting `go`
(`expected_ready = total_spinners + 1`, re-assigned after the creation
loop at `microbenchmark3.c` line 231, `microbenchmark4.c` line 331). -/
def expectedReady (cpusOfNode : Nat → List Nat)
    (numNodes spinners workerNode : Nat) : Int :=
  finalTotalSpinners cpusOfNode numNodes spinners workerNode + 1

end Hydra

namespace Hydra

theorem mprotectLoopOps_eq (n : Nat) : mprotectLoopOps n = 2 * n := by
  induction n with
  | zero => rfl
  | succ k ih =>
    unfold mprotectLoopOps at *
    rw [List.range_succ, List.foldl_append] at *
    simp only [List.foldl_cons, List.foldl_nil] at *
    omega

/-- Claim C1: a PROTECT_TOGGLE run over `N` iterations always completes
(the loop has no failure path) and reports `completed_ops = 2 * N`,
each iteration issuing a read-only then a read-write protection change
and adding 2 to the counter. -/
theorem protect_toggle_ops_eq_two_n (n : Nat) :
    mprotectLoopOps n = 2 * n ∧
    mprotectLoopOps (n + 1) = mprotectLoopOps n + 2 ∧
    (do_mprotect_workload true n).ops = 2 * n := by
  refine ⟨mprotectLoopOps_eq n, ?_, ?_⟩
  · rw [mprotectLoopOps_eq, mprotectLoopOps_eq]; omega
  · simp [do_mprotect_workload, mprotectLoopOps_eq]

theorem munmapLoop_all_ok (remapOk : Nat → Bool) (fuel : Nat) :
    ∀ i ops, (∀ j, j < fuel → remapOk (i + j) = true) →
      munmapLoop remapOk i fuel ops = ops + fuel := by
  induction fuel with
  | zero => intro i ops _; rfl
  | succ f ih =>
    intro i ops h
    have h0 : remapOk i = true := by
      have := h 0 (Nat.succ_pos f); simpa using this
    rw [munmapLoop, h0]
    simp only [if_true]
    have := ih (i + 1) (ops + 1) (fun j hj => by
      have := h (j + 1) (by omega)
      simpa [Nat.add_assoc, Nat.add_comm 1 j] using this)
    omega

theorem munmapLoop_breaks (remapOk : Nat → Bool) :
    ∀ k fuel i ops, k < fuel → (∀ j, j < k → remapOk (i + j) = true) →
      remapOk (i + k) = false →
      munmapLoop remapOk i fuel ops = ops + k := by
  intro k
  induction k with
  | zero =>
    intro fuel i ops hk _ hfail
    obtain ⟨f, rfl⟩ := Nat.exists_eq_succ_of_ne_zero (Nat.pos_iff_ne_zero.mp hk)
    rw [munmapLoop]
    simp only [Nat.add_zero] at hfail
    rw [hfail]
    simp
  | succ k ih =>
    intro fuel i ops hk hpre hfail
    obtain ⟨f, rfl⟩ := Nat.exists_eq_succ_of_ne_zero (by omega : fuel ≠ 0)
    have h0 : remapOk i = true := by
      have := hpre 0 (Nat.succ_pos k); simpa using this
    rw [munmapLoop, h0]
    simp only [if_true]
    have := ih f (i + 1) (ops + 1) (by omega)
      (fun j hj => by
        have := hpre (j + 1) (by omega)
        simpa [Nat.add_assoc, Nat.add_comm 1 j] using this)
      (by simpa [Nat.add_assoc, Nat.add_comm 1 k] using hfail)
    omega

/-- Claim C5: in the UNMAP_REMAP workload each successful unmap+remap
pair adds exactly 1 to the counter, so a failure-free run counts `n`;
when the remap of iteration `k` fails, the loop stops there with the
partial count `k < n`, and the elapsed time is still recorded (the
workload returns a reportable result, no crash). -/
theorem unmap_remap_count_and_early_stop (remapOk : Nat → Bool) (n : Nat) :
    ((∀ i, i < n → remapOk i = true) →
      (do_munmap_workload true remapOk n).ops = n) ∧
    (∀ k, k < n → (∀ i, i < k → remapOk i = true) → remapOk k = false →
      (do_munmap_workload true remapOk n).ops = k ∧
      (do_munmap_workload true remapOk n).ops < n) ∧
    (do_munmap_workload true remapOk n).elapsedSet = true := by
  refine ⟨?_, ?_, by simp [do_munmap_workload]⟩
  · intro h
    simp only [do_munmap_workload, if_true]
    have := munmapLoop_all_ok remapOk n 0 0 (fun j hj => by simpa using h j hj)
    simpa using this
  · intro k hk hpre hfail
    simp only [do_munmap_workload, if_true]
    have := munmapLoop_breaks remapOk k n 0 0 hk
      (fun j hj => by simpa using hpre j hj) (by simpa using hfail)
    constructor
    · simpa using this
    · simp only [this]; omega

theorem unmap_remap_count_and_early_stop_witness :
    (do_munmap_workload true (fun _ => true) 3).ops = 3 ∧
    (do_munmap_workload true (fun i => decide (i ≠ 1)) 3).ops = 1 ∧
    (do_munmap_workload true (fun i => decide (i ≠ 1)) 3).ops < 3 ∧
    (do_munmap_workload true (fun i => decide (i ≠ 1)) 3).elapsedSet = true := by
  have h1 := unmap_remap_count_and_early_stop (fun _ => true) 3
  have h2 := unmap_remap_count_and_early_stop (fun i => decide (i ≠ 1)) 3
  have hb := h2.2.1 1 (by decide) (by decide) (by decide)
  exact ⟨h1.1 (fun i _ => rfl), hb.1, hb.2, h2.2.2⟩

theorem aggregate_fold_fst (rs : List NodeResult) :
    ∀ acc : Nat × ℚ,
      (rs.foldl
        (fun acc r =>
          (acc.1 + r.ops, if acc.2 < r.elapsed_sec then r.elapsed_sec else acc.2))
        acc).1 = acc.1 + (rs.map NodeResult.ops).sum := by
  induction rs with
  | nil => intro acc; simp
  | cons r rest ih =>
    intro acc
    simp only [List.foldl_cons, List.map_cons, List.sum_cons]
    rw [ih]
    omega

theorem aggregate_fold_snd_ge (rs : List NodeResult) :
    ∀ acc : Nat × ℚ,
      acc.2 ≤ (rs.foldl
        (fun acc r =>
          (acc.1 + r.ops, if acc.2 < r.elapsed_sec then r.elapsed_sec else acc.2))
        acc).2 ∧
      ∀ r ∈ rs,
        r.elapsed_sec ≤ (rs.foldl
          (fun acc r =>
            (acc.1 + r.ops, if acc.2 < r.elapsed_sec then r.elapsed_sec else acc.2))
          acc).2 := by
  induction rs with
  | nil => intro acc; simp
  | cons r rest ih =>
    intro acc
    simp only [List.foldl_cons]
    constructor
    · refine le_trans ?_ (ih _).1
      by_cases h : acc.2 < r.elapsed_sec
      · simp only [h, if_true]; exact le_of_lt h
      · simp only [h, if_false]; exact le_refl _
    · intro x hx
      rcases List.mem_cons.mp hx with hx | hx
      · subst hx
        refine le_trans ?_ (ih _).1
        by_cases h : acc.2 < x.elapsed_sec
        · simp only [h, if_true]; exact le_refl _
        · simp only [h, if_false]; exact le_of_not_lt h
      · exact (ih _).2 x hx

/-- Claim C6: the driver sums completed operations across workers and
keeps the maximal elapsed time, reporting throughput as the total over
that maximum; with 4 nodes and `N = 20000` toggle iterations each
worker contributes `2 * 20000 = 40000` operations and the total is
`160000`. -/
theorem driver_aggregation (rs : List NodeResult) :
    (aggregate rs).1 = (rs.map NodeResult.ops).sum ∧
    (∀ r ∈ rs, r.elapsed_sec ≤ (aggregate rs).2) ∧
    throughput rs = ((aggregate rs).1 : ℚ) / (aggregate rs).2 ∧
    mprotectLoopOps 20000 = 40000 ∧
    ∀ e1 e2 e3 e4 : ℚ,
      (aggregate
        [{ ops := 40000, elapsed_sec := e1 },
         { ops := 40000, elapsed_sec := e2 },
         { ops := 40000, elapsed_sec := e3 },
         { ops := 40000, elapsed_sec := e4 }]).1 = 160000 := by
  refine ⟨?_, ?_, rfl, (mprotectLoopOps_eq 20000).trans (by norm_num), ?_⟩
  · have := aggregate_fold_fst rs (0, 0)
    simpa [aggregate] using this
  · intro r hr
    exact (aggregate_fold_snd_ge rs (0, 0)).2 r hr
  · intro e1 e2 e3 e4
    refine Eq.trans (aggregate_fold_fst _ (0, 0)) ?_
    norm_num

theorem driver_aggregation_witness :
    (2 : ℚ) ≤ (aggregate
      [{ ops := 40000, elapsed_sec := 2 },
       { ops := 40000, elapsed_sec := 1 }]).2 := by
  have h := driver_aggregation
    [{ ops := 40000, elapsed_sec := 2 }, { ops := 40000, elapsed_sec := 1 }]
  exact h.2.1 { ops := 40000, elapsed_sec := 2 } (by simp)

/-- Claim C7: when the initial pre-allocation fails in the
PROTECT_TOGGLE or UNMAP_REMAP workload the worker returns without a
result (`ops` stays 0, elapsed time never set), and aggregation over
such a zeroed record is well defined and adds nothing to the totals. -/
theorem failed_prealloc_missing_result (n : Nat) (remapOk : Nat → Bool)
    (rs : List NodeResult) :
    (do_mprotect_workload false n).ops = 0 ∧
    (do_mprotect_workload false n).elapsedSet = false ∧
    (do_munmap_workload false remapOk n).ops = 0 ∧
    (do_munmap_workload false remapOk n).elapsedSet = false ∧
    (aggregate ({ ops := 0, elapsed_sec := 0 } :: rs)).1 = (aggregate rs).1 ∧
    (aggregate ({ ops := 0, elapsed_sec := 0 } :: rs)).2 = (aggregate rs).2 := by
  refine ⟨rfl, rfl, rfl, rfl, ?_, ?_⟩ <;>
    simp [aggregate]

theorem toggleBody_all_of (p : Ev → Bool) (hp : p Ev.mprotectCall = true) :
    ∀ n, (toggleBody n).all p = true := by
  intro n
  induction n with
  | zero => rfl
  | succ m ih => simp [toggleBody, List.all_cons, hp, ih]

theorem spinBody_all_of (p : Ev → Bool) (h1 : p Ev.spinInc = true)
    (h2 : p Ev.pauseHint = true) : ∀ k, (spinBody k).all p = true := by
  intro k
  induction k with
  | zero => rfl
  | succ m ih => simp [spinBody, List.all_cons, h1, h2, ih]

theorem spinBody_mem (k : Nat) :
    ∀ x ∈ spinBody k, x = Ev.spinInc ∨ x = Ev.pauseHint := by
  induction k with
  | zero => intro x hx; cases hx
  | succ m ih =>
    intro x hx
    rcases hx with _ | ⟨_, hx⟩
    · exact Or.inl rfl
    · rcases hx with _ | ⟨_, hx⟩
      · exact Or.inr rfl
      · exact ih x hx

theorem upTo_append_stop (b : Ev) (l r : List Ev)
    (h : ∀ x ∈ l, x ≠ b) : upTo b (l ++ b :: r) = l := by
  induction l with
  | nil => simp [upTo]
  | cons a t ih =>
    have ha : a ≠ b := h a (List.mem_cons_self a t)
    simp only [List.cons_append, upTo, if_neg ha, List.append_eq]
    rw [ih (fun x hx => h x (List.mem_cons_of_mem a hx))]

/-- Claim C4 counterexample: in benchmark 4 the worker's region
allocation and fault-in happen after its ready-counter increment, and
between observing `go` and the start of the timed section, so the
claim as stated is false for the benchmark-4 worker (shown here at the
configured iteration count 10000). -/
theorem worker4_setup_after_ready :
    allSetupBeforeReady (worker4Trace 10000) = false ∧
    noSetupGoToTimed (worker4Trace 10000) = false := by
  exact ⟨rfl, rfl⟩

/-- Claim C4 (amended): in benchmarks 1-3 every participant performs
all setup (affinity bind, region allocation, fault-in) before the
ready-counter increment, and the worker starts its timed loop
immediately after observing `go` (the segment between `go` and the
clock start is empty); in benchmark 4 the affinity bind precedes the
ready increment, but the worker's region allocation and fault-in occur
after observing `go` — before the clock starts, so still off the timed
path. -/
theorem setup_ordering_per_benchmark (n k : Nat) :
    allSetupBeforeReady (worker123Trace n) = true ∧
    segBetween Ev.observeGo Ev.clockStart (worker123Trace n) = [] ∧
    noSetupGoToTimed (worker123Trace n) = true ∧
    allSetupBeforeReady (spinnerTrace k) = true ∧
    (afterFirst Ev.readyInc (worker4Trace n)).all
      (fun x => decide (x ≠ Ev.pinCpu)) = true ∧
    segBetween Ev.observeGo Ev.clockStart (worker4Trace n) =
      [Ev.mmapRegion, Ev.faultIn] := by
  refine ⟨?_, rfl, rfl, ?_, ?_, rfl⟩
  · show (Ev.observeGo :: Ev.clockStart ::
      (toggleBody n ++ [Ev.clockEnd, Ev.freeRegion])).all
        (fun x => !setupEv x) = true
    simp only [List.all_cons, List.all_append]
    rw [toggleBody_all_of _ rfl]
    rfl
  · show (Ev.observeGo :: (spinBody k ++ [Ev.observeStop])).all
      (fun x => !setupEv x) = true
    simp only [List.all_cons, List.all_append]
    rw [spinBody_all_of _ rfl rfl]
    rfl
  · show (Ev.observeGo :: Ev.mmapRegion :: Ev.faultIn :: Ev.clockStart ::
      (toggleBody n ++ [Ev.clockEnd, Ev.freeRegion])).all
        (fun x => decide (x ≠ Ev.pinCpu)) = true
    simp only [List.all_cons, List.all_append]
    rw [toggleBody_all_of _ rfl]
    rfl

/-- Claim C8: between observing `go` and observing `stop` a spinner
only increments its private counter (one increment and one pause hint
per iteration, counter growing by exactly 1 each time, hence
non-decreasing), performs no memory-management syscall, and its only
shared-state write in the whole trace is the single ready-counter
increment. -/
theorem spinner_frame_and_monotone (k : Nat) :
    spin_count (k + 1) = spin_count k + 1 ∧
    spin_count k ≤ spin_count (k + 1) ∧
    segBetween Ev.observeGo Ev.observeStop (spinnerTrace k) = spinBody k ∧
    (spinBody k).all (fun x => !mmSyscall x && !sharedWrite x) = true ∧
    (spinnerTrace k).countP sharedWrite = 1 := by
  refine ⟨rfl, ?_, ?_, ?_, ?_⟩
  · exact Nat.le_succ_of_le (Nat.le_refl _)
  · show upTo Ev.observeStop (spinBody k ++ [Ev.observeStop]) = spinBody k
    exact upTo_append_stop _ _ _ (fun x hx => by
      rcases spinBody_mem k x hx with h | h <;> subst h <;> decide)
  · exact spinBody_all_of _ rfl rfl k
  · show List.countP sharedWrite
      (Ev.pinCpu :: Ev.readyInc :: Ev.observeGo ::
        (spinBody k ++ [Ev.observeStop])) = 1
    simp only [List.countP_cons, List.countP_append]
    have h0 : (spinBody k).countP sharedWrite = 0 := by
      rw [List.countP_eq_zero]
      intro x hx
      rcases spinBody_mem k x hx with h | h <;> subst h <;> decide
    rw [h0]
    rfl

theorem barrier_inv_step (n expected : Nat) (may : Fin n → Bool)
    (s t : BState n) (hst : BStep n expected may s t)
    (ih : (s.go = true → expected ≤ s.ready_count) ∧
      ∀ i, s.pc i = PPhase.mainPh → s.go = true) :
    (t.go = true → expected ≤ t.ready_count) ∧
    ∀ i, t.pc i = PPhase.mainPh → t.go = true := by
  cases hst with
  | readyUp i hm hp =>
    constructor
    · intro hg
      have hg2 : s.go = true := hg
      exact Nat.le_succ_of_le (ih.1 hg2)
    · intro i' hi'
      have hi2 : Function.update s.pc i PPhase.waitingPh i' = PPhase.mainPh := hi'
      show s.go = true
      by_cases hii : i' = i
      · subst hii
        rw [Function.update_same] at hi2
        cases hi2
      · rw [Function.update_noteq hii] at hi2
        exact ih.2 i' hi2
  | enterMain i hp hg =>
    constructor
    · intro _
      exact ih.1 hg
    · intro _ _
      exact hg
  | arm hg hr =>
    exact ⟨fun _ => hr, fun _ _ => rfl⟩

theorem barrier_inv (n expected : Nat) (may : Fin n → Bool) (s : BState n)
    (h : Reach n expected may s) :
    (s.go = true → expected ≤ s.ready_count) ∧
    ∀ i, s.pc i = PPhase.mainPh → s.go = true := by
  induction h with
  | refl =>
    constructor
    · intro hg
      exact absurd hg (by simp [initState])
    · intro i hi
      exact absurd hi (by simp [initState])
  | tail _ hbc ih =>
    exact barrier_inv_step n expected may _ _ hbc ih

/-- Claim C3: in every reachable state of the barrier protocol, a
participant that has entered its main loop implies the ready counter
already reached the expected participant count — the driver arms `go`
only after the ready-wait succeeds, and participants pass their poll
loop only after `go` is set. -/
theorem no_main_before_ready_count (n expected : Nat) (may : Fin n → Bool)
    (s : BState n) (i : Fin n) (h : Reach n expected may s)
    (hm : s.pc i = PPhase.mainPh) : expected ≤ s.ready_count :=
  (barrier_inv n expected may s h).1 ((barrier_inv n expected may s h).2 i hm)

theorem no_main_before_ready_count_witness :
    ∃ s : BState 1, Reach 1 1 wMay s ∧ s.pc 0 = PPhase.mainPh ∧
      1 ≤ s.ready_count := by
  have h1 : BStep 1 1 wMay (initState 1) wSt1 :=
    BStep.readyUp (initState 1) 0 rfl rfl
  have h2 : BStep 1 1 wMay wSt1 wSt2 :=
    BStep.arm wSt1 rfl (Nat.le_refl 1)
  have h3 : BStep 1 1 wMay wSt2 wSt3 :=
    BStep.enterMain wSt2 0 (by simp [wSt2, wSt1, Function.update]) rfl
  have hreach : Reach 1 1 wMay wSt3 :=
    Relation.ReflTransGen.tail
      (Relation.ReflTransGen.tail (Relation.ReflTransGen.single h1) h2) h3
  have hpc : wSt3.pc 0 = PPhase.mainPh := by
    simp [wSt3, Function.update]
  exact ⟨wSt3, hreach, hpc,
    no_main_before_ready_count 1 1 wMay wSt3 0 hreach hpc⟩

theorem barrier_stuck_step (n : Nat) (may : Fin n → Bool) (j : Fin n)
    (hj : may j = false) (s t : BState n) (hst : BStep n n may s t)
    (ih : s.ready_count + setupCard s = n ∧ s.pc j = PPhase.setupPh ∧
      s.go = false ∧ ∀ i, s.pc i ≠ PPhase.mainPh) :
    t.ready_count + setupCard t = n ∧ t.pc j = PPhase.setupPh ∧
      t.go = false ∧ ∀ i, t.pc i ≠ PPhase.mainPh := by
  cases hst with
  | readyUp i hm hp =>
    have hij : i ≠ j := by
      intro hh
      rw [hh, hj] at hm
      cases hm
    have hfil :
        Finset.univ.filter
          (fun x => Function.update s.pc i PPhase.waitingPh x = PPhase.setupPh)
          = (Finset.univ.filter (fun x => s.pc x = PPhase.setupPh)).erase i := by
      ext x
      by_cases hxi : x = i
      · subst hxi
        simp [Function.update_same]
      · simp [Function.update_noteq hxi, hxi]
    have hmem : i ∈ Finset.univ.filter (fun x => s.pc x = PPhase.setupPh) := by
      simp [hp]
    have hcard1 : 1 ≤ setupCard s := Finset.card_pos.mpr ⟨i, hmem⟩
    have hcard :
        setupCard
          { ready_count := s.ready_count + 1, go := s.go,
            pc := Function.update s.pc i PPhase.waitingPh } = setupCard s - 1 := by
      unfold setupCard
      rw [hfil, Finset.card_erase_of_mem hmem]
    refine ⟨?_, ?_, ih.2.2.1, ?_⟩
    · show s.ready_count + 1 + setupCard
        { ready_count := s.ready_count + 1, go := s.go,
          pc := Function.update s.pc i PPhase.waitingPh } = n
      rw [hcard]
      have h1 := ih.1
      omega
    · show Function.update s.pc i PPhase.waitingPh j = PPhase.setupPh
      rw [Function.update_noteq (Ne.symm hij)]
      exact ih.2.1
    · intro i' hi'
      have hi2 : Function.update s.pc i PPhase.waitingPh i' = PPhase.mainPh := hi'
      by_cases hii : i' = i
      · subst hii
        rw [Function.update_same] at hi2
        cases hi2
      · rw [Function.update_noteq hii] at hi2
        exact ih.2.2.2 i' hi2
  | enterMain i hp hg =>
    rw [ih.2.2.1] at hg
    cases hg
  | arm hg hr =>
    have hmemj : j ∈ Finset.univ.filter (fun x => s.pc x = PPhase.setupPh) := by
      simp [ih.2.1]
    have hcard1 : 1 ≤ setupCard s := Finset.card_pos.mpr ⟨j, hmemj⟩
    have h1 := ih.1
    exact absurd hr (by omega)

theorem barrier_stuck_inv (n : Nat) (may : Fin n → Bool) (j : Fin n)
    (hj : may j = false) (s : BState n) (h : Reach n n may s) :
    s.ready_count + setupCard s = n ∧ s.pc j = PPhase.setupPh ∧
    s.go = false ∧ ∀ i, s.pc i ≠ PPhase.mainPh := by
  induction h with
  | refl =>
    refine ⟨?_, rfl, rfl, ?_⟩
    · show 0 + setupCard (initState n) = n
      have hc : setupCard (initState n) = n := by
        unfold setupCard initState
        simp
      omega
    · intro i hi
      exact absurd hi (by simp [initState])
  | tail _ hbc ih =>
    exact barrier_stuck_step n may j hj _ _ hbc ih

/-- Claim C10: with `n` expected participants of which participant `j`
fails its region allocation before the ready increment (benchmarks 1-3
place the worker's `mmap` before the increment and return on failure),
no reachable state ever sets `go`, the ready counter stays below the
expected count, and no participant ever enters its main loop. -/
theorem failed_worker_blocks_barrier (n : Nat) (may : Fin n → Bool)
    (j : Fin n) (hj : may j = false) (s : BState n) (h : Reach n n may s) :
    s.go = false ∧ s.ready_count < n ∧ ∀ i, s.pc i ≠ PPhase.mainPh := by
  obtain ⟨h1, h2, h3, h4⟩ := barrier_stuck_inv n may j hj s h
  have hmemj : j ∈ Finset.univ.filter (fun x => s.pc x = PPhase.setupPh) := by
    simp [h2]
  have hcard1 : 1 ≤ setupCard s := Finset.card_pos.mpr ⟨j, hmemj⟩
  exact ⟨h3, by omega, h4⟩

theorem failed_worker_blocks_barrier_witness :
    wStuck.go = false ∧ wStuck.ready_count < 2 ∧
      ∀ i, wStuck.pc i ≠ PPhase.mainPh := by
  have hstep : BStep 2 2 wMay2 (initState 2) wStuck :=
    BStep.readyUp (initState 2) 1 rfl rfl
  exact failed_worker_blocks_barrier 2 wMay2 0 rfl wStuck
    (Relation.ReflTransGen.single hstep)

theorem spinnersForNode_length (cpusOfNode : Nat → List Nat)
    (node : Nat) :
    ∀ spinners, (spinnersForNode cpusOfNode spinners node).length
      = min spinners (cpusOfNode node).length := by
  intro spinners
  induction spinners with
  | zero => simp [spinnersForNode]
  | succ m ih =>
    unfold spinnersForNode at *
    rw [List.range_succ, List.filterMap_append, List.length_append, ih]
    cases h : get_cpu_for_node cpusOfNode node m with
    | none =>
      have hlen : (cpusOfNode node).length ≤ m := List.get?_eq_none.mp h
      have hfm : (List.filterMap
          (fun s => (get_cpu_for_node cpusOfNode node s).map
            (fun c => (node, c))) [m]).length = 0 := by
        simp [h]
      rw [hfm]
      omega
    | some c =>
      obtain ⟨hlt, _⟩ := List.get?_eq_some.mp h
      have hfm : (List.filterMap
          (fun s => (get_cpu_for_node cpusOfNode node s).map
            (fun c => (node, c))) [m]).length = 1 := by
        simp [h]
      rw [hfm]
      omega

theorem sum_map_const_on_range (S : Nat) (g : Nat → Nat) :
    ∀ m, (∀ node, node < m → g node = S) →
      ((List.range m).map g).sum = m * S := by
  intro m
  induction m with
  | zero => intro _; simp
  | succ k ih =>
    intro hg
    rw [List.range_succ, List.map_append, List.sum_append]
    rw [ih (fun node hn => hg node (by omega))]
    simp only [List.map_cons, List.map_nil, List.sum_cons, List.sum_nil]
    rw [hg k (by omega)]
    ring

theorem sum_map_skip_one_on_range (S w : Nat) (f : Nat → Nat) :
    ∀ m, w < m → (∀ node, node < m → node ≠ w → f node = S) →
      ((List.range m).map
        (fun node => if node = w then 0 else f node)).sum = S * (m - 1) := by
  intro m
  induction m with
  | zero => intro hw; omega
  | succ k ih =>
    intro hw hf
    rw [List.range_succ, List.map_append, List.sum_append]
    simp only [List.map_cons, List.map_nil, List.sum_cons, List.sum_nil]
    by_cases hwk : w = k
    · subst hwk
      rw [if_pos rfl]
      rw [sum_map_const_on_range S _ w
        (fun node hn => by
          rw [if_neg (by omega)]
          exact hf node (by omega) (by omega))]
      simp only [Nat.add_zero, Nat.succ_sub_one]
      exact Nat.mul_comm w S
    · rw [if_neg (Ne.symm hwk)]
      rw [ih (by omega) (fun node hn hne => hf node (by omega) hne)]
      rw [hf k (by omega) (fun hh => hwk (hh.symm))]
      simp only [Nat.add_zero, Nat.succ_sub_one]
      have hk : k - 1 + 1 = k := by omega
      calc S * (k - 1) + S = S * (k - 1 + 1) := by rw [Nat.mul_succ]
        _ = S * k := by rw [hk]

/-- Claim C2: when every remote node exposes at least `S` CPUs, the
driver of benchmarks 3 and 4 creates exactly `S * (M - 1)` spinner
threads (`S` per node, skipping the worker's node) and then waits for
a ready count of that number plus one for the worker. -/
theorem spinner_creation_counts (cpusOfNode : Nat → List Nat)
    (numNodes spinners workerNode : Nat)
    (hM : 1 ≤ numNodes) (hw : workerNode < numNodes)
    (hcpu : ∀ node ∈ List.range numNodes, node ≠ workerNode →
      spinners ≤ (cpusOfNode node).length) :
    (createdSpinners cpusOfNode numNodes spinners workerNode).length
      = spinners * (numNodes - 1) ∧
    expectedReady cpusOfNode numNodes spinners workerNode
      = ((spinners * (numNodes - 1) : Nat) : Int) + 1 := by
  have hlen :
      (createdSpinners cpusOfNode numNodes spinners workerNode).length
        = spinners * (numNodes - 1) := by
    unfold createdSpinners
    by_cases hpos : 0 < initTotalSpinners spinners numNodes
    · rw [if_pos hpos]
      rw [List.length_flatten, List.map_map]
      have hmap :
          (List.range numNodes).map
            (List.length ∘ fun node =>
              if node = workerNode then []
              else spinnersForNode cpusOfNode spinners node)
          = (List.range numNodes).map
            (fun node => if node = workerNode then 0
              else (spinnersForNode cpusOfNode spinners node).length) := by
        apply List.map_congr_left
        intro node _
        simp only [Function.comp_apply]
        by_cases hnw : node = workerNode
        · rw [if_pos hnw, if_pos hnw]
          rfl
        · rw [if_neg hnw, if_neg hnw]
      rw [hmap]
      have hfix :
          (List.range numNodes).map
            (fun node => if node = workerNode then 0
              else (spinnersForNode cpusOfNode spinners node).length)
          = (List.range numNodes).map
            (fun node => if node = workerNode then 0
              else min spinners (cpusOfNode node).length) := by
        apply List.map_congr_left
        intro node _
        by_cases hnw : node = workerNode
        · rw [if_pos hnw, if_pos hnw]
        · rw [if_neg hnw, if_neg hnw, spinnersForNode_length]
      rw [hfix]
      exact sum_map_skip_one_on_range spinners workerNode _ numNodes hw
        (fun node hn hne => by
          have := hcpu node (List.mem_range.mpr hn) hne
          omega)
    · rw [if_neg hpos]
      have h0 : initTotalSpinners spinners numNodes = 0 := by
        unfold initTotalSpinners at *
        have hnn : (0 : Int) ≤ (spinners : Int) * ((numNodes : Int) - 1) := by
          apply mul_nonneg
          · exact Int.natCast_nonneg spinners
          · omega
        omega
      have hSM : spinners * (numNodes - 1) = 0 := by
        unfold initTotalSpinners at h0
        have : spinners = 0 ∨ (numNodes : Int) - 1 = 0 := by
          rcases mul_eq_zero.mp h0 with h | h
          · left; exact_mod_cast h
          · right; exact h
        rcases this with h | h
        · rw [h]; ring
        · have : numNodes = 1 := by omega
          rw [this]
          ring
      rw [hSM]
      rfl
  refine ⟨hlen, ?_⟩
  unfold expectedReady finalTotalSpinners
  by_cases hpos : 0 < initTotalSpinners spinners numNodes
  · rw [if_pos hpos, hlen]
  · rw [if_neg hpos]
    have h0 : initTotalSpinners spinners numNodes = 0 := by
      unfold initTotalSpinners at *
      have hnn : (0 : Int) ≤ (spinners : Int) * ((numNodes : Int) - 1) := by
        apply mul_nonneg
        · exact Int.natCast_nonneg spinners
        · omega
      omega
    have hSM : spinners * (numNodes - 1) = 0 := by
      have hcreated := hlen
      unfold initTotalSpinners at h0
      have : spinners = 0 ∨ (numNodes : Int) - 1 = 0 := by
        rcases mul_eq_zero.mp h0 with h | h
        · left; exact_mod_cast h
        · right; exact h
      rcases this with h | h
      · rw [h]; ring
      · have : numNodes = 1 := by omega
        rw [this]
        ring
    rw [h0, hSM]
    rfl

theorem spinner_creation_counts_witness :
    (createdSpinners (fun n => [10 * n, 10 * n + 1]) 3 2 0).length
      = 2 * (3 - 1) ∧
    expectedReady (fun n => [10 * n, 10 * n + 1]) 3 2 0
      = ((2 * (3 - 1) : Nat) : Int) + 1 := by
  exact spinner_creation_counts (fun n => [10 * n, 10 * n + 1]) 3 2 0
    (by omega) (by omega) (by decide)

/-- Claim C9: for any topology (including nodes with missing CPUs, in
which case spinners are silently skipped), after the driver's
post-creation adjustment the spinner total equals the number of
spinner threads actually created and the expected-ready count equals
that number plus one for the worker — the barrier never waits for a
thread that was not created. -/
theorem expected_ready_matches_created (cpusOfNode : Nat → List Nat)
    (numNodes spinners workerNode : Nat) (hM : 1 ≤ numNodes) :
    expectedReady cpusOfNode numNodes spinners workerNode
      = ((createdSpinners cpusOfNode numNodes spinners workerNode).length : Int)
          + 1 ∧
    finalTotalSpinners cpusOfNode numNodes spinners workerNode
      = ((createdSpinners cpusOfNode numNodes spinners workerNode).length
          : Int) := by
  have hfin :
      finalTotalSpinners cpusOfNode numNodes spinners workerNode
        = ((createdSpinners cpusOfNode numNodes spinners workerNode).length
            : Int) := by
    unfold finalTotalSpinners
    by_cases hpos : 0 < initTotalSpinners spinners numNodes
    · rw [if_pos hpos]
    · rw [if_neg hpos]
      have h0 : initTotalSpinners spinners numNodes = 0 := by
        unfold initTotalSpinners at *
        have hnn : (0 : Int) ≤ (spinners : Int) * ((numNodes : Int) - 1) := by
          apply mul_nonneg
          · exact Int.natCast_nonneg spinners
          · omega
        omega
      have hempty :
          createdSpinners cpusOfNode numNodes spinners workerNode = [] := by
        unfold createdSpinners
        rw [if_neg hpos]
      rw [h0, hempty]
      rfl
  exact ⟨by unfold expectedReady; rw [hfin], hfin⟩

theorem expected_ready_matches_created_witness :
    expectedReady (fun _ => ([] : List Nat)) 2 1 0
      = ((createdSpinners (fun _ => ([] : List Nat)) 2 1 0).length : Int)
          + 1 ∧
    finalTotalSpinners (fun _ => ([] : List Nat)) 2 1 0
      = ((createdSpinners (fun _ => ([] : List Nat)) 2 1 0).length : Int) := by
  exact expected_ready_matches_created (fun _ => []) 2 1 0 (by omega)

end Hydra
